import Mathlib

/-!
Verification of the soil-data analysis pipeline.

The pipeline (a PySpark notebook plus a pandas notebook) ingests CSV rows
under a fixed schema with per-column range filters, removes statistical
outliers by z-score against a sampled mean/stddev, applies a compound
predicate filter, deduplicates rows, computes descriptive statistics
(including the column mode), interpolates missing carbon values, and splits
rows into train/test subsets for regression.

Rows are embedded as records of optional rationals (the CSV schema declares
every column nullable; a field that failed to parse is `none`).  Datasets
are lists of records, in source order.  Spark/pandas column operations on
null follow SQL three-valued logic: any comparison or arithmetic involving
null is not true, so a filter drops such rows; the embedding makes that
explicit in each predicate.
-/

/-- One parsed CSV row of the PySpark notebook's schema: every column is
nullable (`none` models SQL NULL / a failed parse). -/
structure Record where
  timestamp : Option Int
  soil_moisture : Option ℚ
  soil_water_content : Option ℚ
  carbon_percent : Option ℚ
  nitrogen_percent : Option ℚ
  atmospheric_humidity : Option ℚ
  temperature : Option ℚ
  pH : Option ℚ
deriving DecidableEq, Repr

/-- Spark's `col.between(lo, hi)` under a filter: true only when the value
is present and inside the closed interval; a NULL comparison is not true,
so the row is dropped. -/
def betweenQ (x : Option ℚ) (lo hi : ℚ) : Bool :=
  match x with
  | none => false
  | some v => decide (lo ≤ v) && decide (v ≤ hi)

/-- The ingestion filter of the PySpark notebook: the conjunction of the
seven declared range constraints. -/
def validRow (r : Record) : Bool :=
  betweenQ r.soil_moisture 0 100 &&
  betweenQ r.soil_water_content 0 100 &&
  betweenQ r.carbon_percent 0 10 &&
  betweenQ r.nitrogen_percent 0 5 &&
  betweenQ r.atmospheric_humidity 0 100 &&
  betweenQ r.temperature 0 40 &&
  betweenQ r.pH 4 9

/-- Ingestion: `spark.read.schema(schema).csv(...).filter(...)` — the
parsed rows restricted to those passing every range constraint. -/
def ingest (src : List Record) : List Record :=
  src.filter validRow

/-- The anomaly-filter predicate
`((col("soil_moisture") - mean) / stddev).between(-3, 3)`.
With a zero divisor Spark's (non-ANSI) division yields NULL, and with a
NULL column value the whole expression is NULL; `between` on NULL is not
true, so such rows are dropped. -/
def zscoreKeep (m s : ℚ) (x : Option ℚ) : Bool :=
  match x with
  | none => false
  | some v =>
    if s = 0 then false
    else decide (-3 ≤ (v - m) / s) && decide ((v - m) / s ≤ 3)

/-- Task 2 of the PySpark notebook:
`df_clean = df.filter(((col("soil_moisture") - mean_moisture) / stddev_moisture).between(-3, 3))`.
The sampled estimates `mean_moisture` and `stddev_moisture` are parameters
`m` and `s`: they are whatever the seeded sample produced. -/
def df_clean (m s : ℚ) (df : List Record) : List Record :=
  df.filter (fun r => zscoreKeep m s r.soil_moisture)

/-- Declarative form of one range constraint, for stating the ingestion
contract: the field parsed and lies within the inclusive bounds. -/
def inRangeDecl (x : Option ℚ) (lo hi : ℚ) : Prop :=
  ∃ v, x = some v ∧ lo ≤ v ∧ v ≤ hi

theorem betweenQ_iff (x : Option ℚ) (lo hi : ℚ) :
    betweenQ x lo hi = true ↔ inRangeDecl x lo hi := by
  cases x <;> simp [betweenQ, inRangeDecl]

/-- A fixed in-range row used to instantiate hypotheses at concrete inputs. -/
def r0 : Record :=
  ⟨some 1, some 55, some 50, some 5, some 2, some 50, some 20, some 7⟩

/-- C3: a row is in the Ingestion output exactly when it is a source row
whose parsed fields satisfy all seven declared inclusive range constraints;
in particular no source row violating any declared range appears in the
output. -/
theorem ingest_mem_iff (src : List Record) (r : Record) :
    r ∈ ingest src ↔ r ∈ src ∧
      inRangeDecl r.soil_moisture 0 100 ∧
      inRangeDecl r.soil_water_content 0 100 ∧
      inRangeDecl r.carbon_percent 0 10 ∧
      inRangeDecl r.nitrogen_percent 0 5 ∧
      inRangeDecl r.atmospheric_humidity 0 100 ∧
      inRangeDecl r.temperature 0 40 ∧
      inRangeDecl r.pH 4 9 := by
  simp only [ingest, List.mem_filter, validRow, Bool.and_eq_true, betweenQ_iff]
  tauto

/-- C1: when the estimated standard deviation is nonzero, the Outlier
Filter retains a row exactly when it is an input row whose soil-moisture
z-score `(value - m) / s` lies in the closed interval `[-3, 3]`. -/
theorem df_clean_mem_iff (m s : ℚ) (df : List Record) (r : Record)
    (hs : s ≠ 0) :
    r ∈ df_clean m s df ↔ r ∈ df ∧
      ∃ v, r.soil_moisture = some v ∧
        -3 ≤ (v - m) / s ∧ (v - m) / s ≤ 3 := by
  simp only [df_clean, List.mem_filter]
  cases hx : r.soil_moisture <;>
    simp [zscoreKeep, hx, hs]

/-- Witness for C1 at a concrete input: with mean 50 and stddev 10 the row
`r0` (soil moisture 55, z-score 1/2) is retained. -/
theorem df_clean_mem_iff_witness :
    r0 ∈ df_clean 50 10 [r0] ↔ r0 ∈ [r0] ∧
      ∃ v, r0.soil_moisture = some v ∧
        -3 ≤ (v - 50) / 10 ∧ (v - 50) / 10 ≤ 3 :=
  df_clean_mem_iff 50 10 [r0] r0 (by norm_num)

/-- C2 counterexample: with estimated stddev 0 the anomaly-filter stage
still produces a Dataset — the empty one — instead of failing: no error is
raised on the concrete one-row input `[r0]`. -/
theorem df_clean_stddev_zero_concrete : df_clean 50 0 [r0] = [] := by
  decide

/-- C2 amended: if the estimated standard deviation is zero, the zero
divisor makes every row's z-score predicate evaluate to NULL (not true),
so the filter drops every row and returns the empty Dataset; no error is
raised. -/
theorem df_clean_stddev_zero (m : ℚ) (df : List Record) :
    df_clean m 0 df = [] := by
  rw [df_clean, List.filter_eq_nil_iff]
  intro r _
  cases hx : r.soil_moisture <;> simp [zscoreKeep, hx]

/-! ### Deduplication (pandas notebook)

`df.duplicated(keep=False)` marks every row whose full-tuple value occurs
at least twice in the frame; `df.drop_duplicates()` keeps the first
occurrence of each distinct full-tuple value. -/

/-- The rows selected by `df[df.duplicated(keep=False)]`: all occurrences
of any row value that appears at least twice. -/
def all_duplicates {α : Type} [DecidableEq α] (df : List α) : List α :=
  df.filter (fun r => decide (2 ≤ df.count r))

/-- `df.drop_duplicates()`: keep the first occurrence of each distinct
row value, in original order. -/
def dropDuplicates {α : Type} [DecidableEq α] : List α → List α
  | [] => []
  | a :: l => a :: dropDuplicates (l.filter (fun b => decide (b ≠ a)))
termination_by l => l.length
decreasing_by
  simp only [List.length_cons]
  exact Nat.lt_succ_of_le (List.length_filter_le _ _)

/-- Restatement of the claim's words (not of the code): scan the rows in
original order and keep a row exactly when its full-tuple value has not
been encountered earlier in the scan; `seen` accumulates the values
already encountered. -/
def keepFirstAux {α : Type} [DecidableEq α] (seen : List α) :
    List α → List α
  | [] => []
  | a :: l =>
    if a ∈ seen then keepFirstAux seen l
    else a :: keepFirstAux (a :: seen) l

/-- The first-encountered survivor per distinct value, per the claim's
words: used to compare the claimed survivor choice against the
implemented one. -/
def keepFirstOnly {α : Type} [DecidableEq α] (df : List α) : List α :=
  keepFirstAux [] df

theorem dropDuplicates_sublist {α : Type} [DecidableEq α] :
    ∀ l : List α, (dropDuplicates l).Sublist l := by
  intro l
  induction l using dropDuplicates.induct with
  | case1 => simp [dropDuplicates]
  | case2 a l ih =>
    rw [dropDuplicates]
    exact (ih.trans (List.filter_sublist l)).cons₂ a

theorem mem_dropDuplicates {α : Type} [DecidableEq α] :
    ∀ (l : List α) (b : α), b ∈ dropDuplicates l ↔ b ∈ l := by
  intro l
  induction l using dropDuplicates.induct with
  | case1 => simp [dropDuplicates]
  | case2 a l ih =>
    intro b
    rw [dropDuplicates]
    constructor
    · intro hb
      rcases List.mem_cons.mp hb with h | h
      · exact h ▸ List.mem_cons_self _ _
      · exact List.mem_cons_of_mem _ ((List.mem_filter.mp ((ih b).mp h)).1)
    · intro hb
      rcases List.mem_cons.mp hb with h | h
      · exact h ▸ List.mem_cons_self _ _
      · by_cases hba : b = a
        · exact hba ▸ List.mem_cons_self _ _
        · exact List.mem_cons_of_mem _
            ((ih b).mpr (List.mem_filter.mpr ⟨h, by simpa using hba⟩))

theorem dropDuplicates_nodup {α : Type} [DecidableEq α] :
    ∀ l : List α, (dropDuplicates l).Nodup := by
  intro l
  induction l using dropDuplicates.induct with
  | case1 => simp [dropDuplicates]
  | case2 a l ih =>
    rw [dropDuplicates]
    refine List.nodup_cons.mpr ⟨fun hmem => ?_, ih⟩
    have := (List.mem_filter.mp ((mem_dropDuplicates _ a).mp hmem)).2
    simp at this

/-- Counting in a filtered list: a value keeps its full multiplicity when
it satisfies the predicate and vanishes otherwise. -/
theorem count_filter_eq {α : Type} [DecidableEq α] (p : α → Bool)
    (l : List α) (v : α) :
    (l.filter p).count v = if p v then l.count v else 0 := by
  induction l with
  | nil => simp
  | cons a l ih =>
    rw [List.filter_cons]
    by_cases hp : p a
    · simp only [hp, if_true, List.count_cons, ih]
      by_cases hv : v = a
      · simp [hv, hp]
      · have hv2 : ¬a = v := fun h => hv h.symm
        simp [hv, hv2]
    · simp only [hp, if_false, Bool.false_eq_true, ih, List.count_cons]
      by_cases hv : v = a
      · simp [hv, hp]
      · have hv2 : ¬a = v := fun h => hv h.symm
        simp [hv, hv2]

/-- In the recursion of `dropDuplicates`, running the first-encountered
scan with accumulated seen values is the same as deduplicating the rows
whose value is not yet seen. -/
theorem keepFirstAux_eq_dropDuplicates {α : Type} [DecidableEq α] :
    ∀ (l seen : List α),
      keepFirstAux seen l
        = dropDuplicates (l.filter (fun b => decide (b ∉ seen))) := by
  intro l
  induction l with
  | nil => intro seen; simp [keepFirstAux, dropDuplicates]
  | cons a t ih =>
    intro seen
    by_cases ha : a ∈ seen
    · have hda : decide (a ∉ seen) = false := by simp [ha]
      rw [List.filter_cons, hda]
      simp only [keepFirstAux, if_pos ha, Bool.false_eq_true, if_false]
      exact ih seen
    · have hda : decide (a ∉ seen) = true := by simp [ha]
      rw [List.filter_cons, hda]
      simp only [keepFirstAux, if_neg ha, if_true]
      rw [dropDuplicates]
      congr 1
      rw [List.filter_filter, ih (a :: seen)]
      congr 1
      apply List.filter_congr
      intro b _
      by_cases h1 : b = a <;> by_cases h2 : b ∈ seen <;>
        simp [h1, h2, List.mem_cons]

/-- C4: the Deduplicator's report and output.  The duplicate report counts
every occurrence of any row value appearing at least twice (its count in
`all_duplicates` is the full multiplicity, not the repeats only), and
`dropDuplicates` returns a subsequence of the input without duplicates,
with exactly the same row values, and equal to the first-encountered scan
`keepFirstOnly`: per distinct value exactly its first occurrence in
original order survives. -/
theorem deduplicator_spec {α : Type} [DecidableEq α] (df : List α)
    (v a : α) :
    (all_duplicates df).length =
      df.countP (fun r => decide (2 ≤ df.count r)) ∧
    (all_duplicates df).count v =
      (if 2 ≤ df.count v then df.count v else 0) ∧
    (dropDuplicates df).Sublist df ∧
    (dropDuplicates df).Nodup ∧
    (a ∈ dropDuplicates df ↔ a ∈ df) ∧
    dropDuplicates df = keepFirstOnly df := by
  have hkf : keepFirstOnly df = dropDuplicates df := by
    rw [keepFirstOnly, keepFirstAux_eq_dropDuplicates]
    congr 1
    apply List.filter_eq_self.mpr
    intro b _
    simp
  refine ⟨(List.countP_eq_length_filter _ _).symm, ?_, dropDuplicates_sublist df,
    dropDuplicates_nodup df, mem_dropDuplicates df a, hkf.symm⟩
  rw [all_duplicates, count_filter_eq]
  by_cases h : 2 ≤ df.count v <;> simp [h]

theorem dropDuplicates_eq_self_of_nodup {α : Type} [DecidableEq α]
    {l : List α} (h : l.Nodup) : dropDuplicates l = l := by
  induction l with
  | nil => simp [dropDuplicates]
  | cons a l ih =>
    rw [dropDuplicates]
    rcases List.nodup_cons.mp h with ⟨ha, hl⟩
    have hf : l.filter (fun b => decide (b ≠ a)) = l := by
      apply List.filter_eq_self.mpr
      intro b hb
      simp only [decide_eq_true_eq]
      intro hba
      exact ha (hba ▸ hb)
    rw [hf, ih hl]

/-- C5: deduplication is idempotent — a second application of the
Deduplicator to its own output removes nothing. -/
theorem dropDuplicates_idem {α : Type} [DecidableEq α] (df : List α) :
    dropDuplicates (dropDuplicates df) = dropDuplicates df :=
  dropDuplicates_eq_self_of_nodup (dropDuplicates_nodup df)

/-! ### Interpolation and the compound predicate filter -/

/-- A row of `df_interp`: the original columns plus the appended
`carbon_percent_interp` column produced by `withColumn`. -/
structure RecordI extends Record where
  carbon_percent_interp : Option ℚ
deriving DecidableEq, Repr

/-- Task 5 of the PySpark notebook, per row:
`when(col("carbon_percent").isNull(), col("soil_moisture") * 0.05).otherwise(col("carbon_percent"))`.
A NULL `soil_moisture` under the null branch propagates to NULL. -/
def interpRow (r : Record) : RecordI :=
  RecordI.mk r
    (match r.carbon_percent with
     | none => r.soil_moisture.map (fun v => v * (5 / 100))
     | some c => some c)

/-- `df_interp = df_clean.withColumn("carbon_percent_interp", ...)`:
the interpolation applied to every row. -/
def df_interp (df : List Record) : List RecordI :=
  df.map interpRow

/-- Task 3's compound predicate:
`(col("soil_moisture") > 80) & (col("pH") < 5)`; NULL comparisons are not
true, so rows with missing fields are dropped. -/
def compoundKeep (r : Record) : Bool :=
  (match r.soil_moisture with
   | none => false
   | some v => decide (80 < v)) &&
  (match r.pH with
   | none => false
   | some v => decide (v < 5))

/-- `filtered_df = df_clean.filter((col("soil_moisture") > 80) & (col("pH") < 5))`. -/
def filtered_df (df : List Record) : List Record :=
  df.filter compoundKeep

/-- C7: interpolation maps each row independently: row `i` of the output
restricts to row `i` of the input on the original columns (lengths equal,
nothing reordered), and the appended column is `0.05 * soil_moisture` when
`carbon_percent` is missing and the unchanged `carbon_percent` otherwise. -/
theorem interp_frame_spec (df : List Record) (r : Record) (i : Nat) :
    df_interp df = df.map interpRow ∧
    (df_interp df).length = df.length ∧
    ((df_interp df)[i]?).map RecordI.toRecord = df[i]? ∧
    (interpRow r).toRecord = r ∧
    (interpRow r).carbon_percent_interp =
      (match r.carbon_percent with
       | none => r.soil_moisture.map (fun v => v * (5 / 100))
       | some c => some c) := by
  refine ⟨rfl, by simp [df_interp], ?_, rfl, rfl⟩
  simp only [df_interp, List.getElem?_map]
  cases df[i]? <;> rfl

/-- C10: both the anomaly filter and the compound predicate filter return
subsequences of their input (rows are only removed, with field values
intact and input order preserved), and every row surviving both filters
after ingestion still satisfies all declared range constraints. -/
theorem filters_only_remove (m s : ℚ) (df src : List Record) (r : Record)
    (hr : r ∈ filtered_df (df_clean m s (ingest src))) :
    (df_clean m s df).Sublist df ∧
    (filtered_df df).Sublist df ∧
    validRow r = true := by
  refine ⟨List.filter_sublist df, List.filter_sublist df, ?_⟩
  have h1 : r ∈ df_clean m s (ingest src) := (List.mem_filter.mp hr).1
  have h2 : r ∈ ingest src := (List.mem_filter.mp h1).1
  exact (List.mem_filter.mp h2).2

/-- A fixed row passing ingestion, the compound filter, and (for mean 90,
stddev 1) the anomaly filter: soil moisture 90, pH 4.5. -/
def r1 : Record :=
  ⟨some 1, some 90, some 50, some 5, some 2, some 50, some 20, some 4⟩

/-- Witness for C10 at a concrete input: the row `r1` survives
ingestion, the anomaly filter with mean 90 / stddev 1, and the compound
filter, and is still range-valid. -/
theorem filters_only_remove_witness :
    (df_clean 90 1 [r1]).Sublist [r1] ∧
    (filtered_df [r1]).Sublist [r1] ∧
    validRow r1 = true :=
  filters_only_remove 90 1 [r1] [r1] r1 (by
    have hv : validRow r1 = true := by norm_num [validRow, betweenQ, r1]
    have hz : zscoreKeep 90 1 r1.soil_moisture = true := by
      norm_num [zscoreKeep, r1]
    have hc : compoundKeep r1 = true := by norm_num [compoundKeep, r1]
    exact List.mem_filter.mpr ⟨List.mem_filter.mpr ⟨List.mem_filter.mpr
      ⟨List.mem_singleton.mpr rfl, hv⟩, hz⟩, hc⟩)

/-- C9: ingestion rejects any row with a NULL in a range-checked column,
so every row reaching the interpolation stage has a present
`carbon_percent`; the null branch of the interpolation is never taken and
the appended column equals the original `carbon_percent`. -/
theorem interp_never_fires (src : List Record) (m s : ℚ) (r : RecordI)
    (hr : r ∈ df_interp (df_clean m s (ingest src))) :
    (∃ c, r.carbon_percent = some c) ∧
    r.carbon_percent_interp = r.carbon_percent := by
  obtain ⟨q, hq, rfl⟩ := List.mem_map.mp hr
  have h1 : q ∈ ingest src := (List.mem_filter.mp hq).1
  have h2 : validRow q = true := (List.mem_filter.mp h1).2
  have h3 : inRangeDecl q.carbon_percent 0 10 := by
    simp only [validRow, Bool.and_eq_true, betweenQ_iff] at h2
    exact h2.1.1.1.1.2
  obtain ⟨c, hc, -⟩ := h3
  refine ⟨⟨c, hc⟩, ?_⟩
  show (interpRow q).carbon_percent_interp = q.carbon_percent
  simp [interpRow, hc]

/-- Witness for C9 at a concrete input: the interpolated image of `r0`
keeps its carbon value 5. -/
theorem interp_never_fires_witness :
    (∃ c, (interpRow r0).carbon_percent = some c) ∧
    (interpRow r0).carbon_percent_interp = (interpRow r0).carbon_percent :=
  interp_never_fires [r0] 50 10 (interpRow r0) (by
    have hv : validRow r0 = true := by norm_num [validRow, betweenQ, r0]
    have hz : zscoreKeep 50 10 r0.soil_moisture = true := by
      norm_num [zscoreKeep, r0]
    exact List.mem_map.mpr ⟨r0, List.mem_filter.mpr
      ⟨List.mem_filter.mpr ⟨List.mem_singleton.mpr rfl, hv⟩, hz⟩, rfl⟩)

/-! ### Train/test split (`randomSplit([0.8, 0.2], seed=42)`)

Spark's `randomSplit` draws one uniform value per row from a generator
seeded by the split seed and routes the row to the first subset when the
value falls below the first cumulative weight, otherwise to the second.
The per-row draw is a pure function of the seed and the row position, so
it is embedded as an explicit function `rnd`; determinism for a fixed seed
is inherent (`rnd` is the same function on every run). -/

/-- The two-way split: row `i` goes to the training side exactly when its
draw `rnd i` is below the first weight `w`, otherwise to the test side. -/
def randomSplit {α : Type} (rnd : Nat → ℚ) (w : ℚ) (df : List α) :
    List α × List α :=
  ((df.enum.filter (fun p => decide (rnd p.1 < w))).map Prod.snd,
   (df.enum.filter (fun p => !decide (rnd p.1 < w))).map Prod.snd)

/-- The row positions routed to the training subset. -/
def trainIdx {α : Type} (rnd : Nat → ℚ) (w : ℚ) (df : List α) : List Nat :=
  (df.enum.filter (fun p => decide (rnd p.1 < w))).map Prod.fst

/-- The row positions routed to the test subset. -/
def testIdx {α : Type} (rnd : Nat → ℚ) (w : ℚ) (df : List α) : List Nat :=
  (df.enum.filter (fun p => !decide (rnd p.1 < w))).map Prod.fst

/-- C8: the split partitions the input — the two subset sizes sum to the
total row count, the concatenation of the two subsets is a permutation of
the input (no row dropped, none duplicated), and no row position lands in
both subsets. -/
theorem randomSplit_partition {α : Type} (rnd : Nat → ℚ) (w : ℚ)
    (df : List α) :
    (randomSplit rnd w df).1.length + (randomSplit rnd w df).2.length
        = df.length ∧
    List.Perm ((randomSplit rnd w df).1 ++ (randomSplit rnd w df).2) df ∧
    ∀ i, i ∈ trainIdx rnd w df → i ∉ testIdx rnd w df := by
  have hperm :
      List.Perm ((randomSplit rnd w df).1 ++ (randomSplit rnd w df).2) df := by
    rw [randomSplit, ← List.map_append]
    have h := List.filter_append_perm
      (fun p : Nat × α => decide (rnd p.1 < w)) df.enum
    have h2 := h.map Prod.snd
    rwa [List.enum_map_snd] at h2
  refine ⟨?_, hperm, ?_⟩
  · have := hperm.length_eq
    rwa [List.length_append] at this
  · intro i hi hj
    obtain ⟨p, hp, hpi⟩ := List.mem_map.mp hi
    obtain ⟨q, hq, hqi⟩ := List.mem_map.mp hj
    have hp2 := (List.mem_filter.mp hp).2
    have hq2 := (List.mem_filter.mp hq).2
    rw [hpi] at hp2
    rw [hqi] at hq2
    simp only [Bool.not_eq_true', decide_eq_false_iff_not] at hq2
    exact hq2 (of_decide_eq_true hp2)

/-- Witness for C8's disjointness at a concrete input: with draw function
`n ↦ n` and first weight 1, row position 0 is routed to the training
subset and therefore not to the test subset. -/
theorem randomSplit_partition_witness :
    (0 : Nat) ∉ testIdx (fun n => (n : ℚ)) 1 [r0] :=
  (randomSplit_partition (fun n => (n : ℚ)) 1 [r0]).2.2 0 (by
    norm_num [trainIdx, List.enum])

/-! ### Column mode (pandas `compute_stats`)

`df[column].mode()` drops missing values, collects the values of maximal
occurrence count, and returns them sorted in ascending order;
`compute_stats` then takes `mode_series.iloc[0]` — the smallest of the
tied modes — and `np.nan` (here `none`) when the series is empty. -/

/-- Ascending insertion, modelling the sorted order of the pandas mode
series. -/
def insertSorted (x : ℚ) : List ℚ → List ℚ
  | [] => [x]
  | y :: ys => if x ≤ y then x :: y :: ys else y :: insertSorted x ys

/-- Sort a list of values ascending. -/
def sortAsc (l : List ℚ) : List ℚ :=
  l.foldr insertSorted []

/-- The maximal occurrence count over a value list. -/
def maxCount (vs : List ℚ) : Nat :=
  (vs.map (fun x => vs.count x)).foldr Nat.max 0

/-- `compute_stats`'s mode:
`mode_series.iloc[0] if not mode_series.empty else np.nan`, where
`mode_series` is the ascending list of the distinct values of maximal
occurrence count among the non-missing entries. -/
def seriesMode (xs : List (Option ℚ)) : Option ℚ :=
  let vs := xs.filterMap id
  (sortAsc ((dropDuplicates vs).filter
    (fun v => decide (vs.count v = maxCount vs)))).head?

/-- Restatement of the claim's words (not of the code): mode ties broken
by the first-encountered value in scan order.  Used only to compare the
claimed tie-break against the implemented one. -/
def modeSpecFirstTie (xs : List (Option ℚ)) : Option ℚ :=
  let vs := xs.filterMap id
  (dropDuplicates vs).find? (fun v => decide (vs.count v = maxCount vs))

theorem head_insertSorted (x : ℚ) (l : List ℚ) :
    (insertSorted x l).head? =
      some (match l.head? with | none => x | some y => min x y) := by
  cases l with
  | nil => rfl
  | cons y ys =>
    rw [insertSorted]
    by_cases h : x ≤ y
    · simp [h, min_def]
    · simp [h, min_def]

theorem length_insertSorted (x : ℚ) (l : List ℚ) :
    (insertSorted x l).length = l.length + 1 := by
  induction l with
  | nil => rfl
  | cons y ys ih =>
    rw [insertSorted]
    by_cases h : x ≤ y <;> simp [h, ih]

theorem length_sortAsc (l : List ℚ) : (sortAsc l).length = l.length := by
  induction l with
  | nil => rfl
  | cons x t ih =>
    have hx : sortAsc (x :: t) = insertSorted x (sortAsc t) := rfl
    rw [hx, length_insertSorted, ih, List.length_cons]

theorem sortAsc_head_min (l : List ℚ) (m : ℚ)
    (h : (sortAsc l).head? = some m) : m ∈ l ∧ ∀ y ∈ l, m ≤ y := by
  induction l generalizing m with
  | nil => simp [sortAsc] at h
  | cons x t ih =>
    have hx : sortAsc (x :: t) = insertSorted x (sortAsc t) := rfl
    rw [hx, head_insertSorted] at h
    cases ht : (sortAsc t).head? with
    | none =>
      have htnil : sortAsc t = [] := List.head?_eq_none_iff.mp ht
      have : t = [] := by
        have := length_sortAsc t
        rw [htnil] at this
        exact List.length_eq_zero.mp this.symm
      subst this
      rw [ht] at h
      simp only [Option.some.injEq] at h
      subst h
      exact ⟨List.mem_cons_self _ _, by simp⟩
    | some z =>
      rw [ht] at h
      simp only [Option.some.injEq] at h
      obtain ⟨hz, hall⟩ := ih z ht
      subst h
      constructor
      · rcases min_choice x z with hc | hc <;> rw [hc]
        · exact List.mem_cons_self _ _
        · exact List.mem_cons_of_mem _ hz
      · intro y hy
        rcases List.mem_cons.mp hy with rfl | hyt
        · exact min_le_left _ _
        · exact le_trans (min_le_right _ _) (hall y hyt)

theorem le_foldr_max (l : List Nat) (x : Nat) (hx : x ∈ l) :
    x ≤ l.foldr Nat.max 0 := by
  induction l with
  | nil => simp at hx
  | cons a t ih =>
    rcases List.mem_cons.mp hx with rfl | hxt
    · exact Nat.le_max_left _ _
    · exact le_trans (ih hxt) (Nat.le_max_right _ _)

theorem foldr_max_mem (l : List Nat) (hl : l ≠ []) :
    l.foldr Nat.max 0 ∈ l := by
  induction l with
  | nil => exact absurd rfl hl
  | cons a t ih =>
    cases t with
    | nil => simp
    | cons b u =>
      have hfoldr : (a :: b :: u).foldr Nat.max 0
          = Nat.max a ((b :: u).foldr Nat.max 0) := rfl
      rcases Nat.le_total ((b :: u).foldr Nat.max 0) a with hle | hle
      · have heq : Nat.max a ((b :: u).foldr Nat.max 0) = a :=
          Nat.max_eq_left hle
        rw [hfoldr, heq]
        exact List.mem_cons_self _ _
      · have heq : Nat.max a ((b :: u).foldr Nat.max 0)
            = (b :: u).foldr Nat.max 0 := Nat.max_eq_right hle
        rw [hfoldr, heq]
        exact List.mem_cons_of_mem _ (ih (by simp))

theorem count_le_maxCount (vs : List ℚ) (v : ℚ) (hv : v ∈ vs) :
    vs.count v ≤ maxCount vs :=
  le_foldr_max _ _ (List.mem_map.mpr ⟨v, hv, rfl⟩)

theorem maxCount_attained (vs : List ℚ) (h : vs ≠ []) :
    ∃ v ∈ vs, vs.count v = maxCount vs := by
  have hmem : maxCount vs ∈ vs.map (fun x => vs.count x) :=
    foldr_max_mem _ (by simpa using h)
  obtain ⟨v, hv, hcount⟩ := List.mem_map.mp hmem
  exact ⟨v, hv, hcount⟩

/-- C6 amended: the mode of a column is `none` (NaN) when every entry is
missing, is defined when some entry is present, and is then a value of
maximal occurrence count among the non-missing entries with ties broken in
favor of the smallest tied value (the pandas mode series is sorted
ascending and `iloc[0]` takes its first element). -/
theorem seriesMode_spec (xs : List (Option ℚ)) :
    (xs.filterMap id = [] → seriesMode xs = none) ∧
    (xs.filterMap id ≠ [] → (seriesMode xs).isSome = true) ∧
    (∀ m, seriesMode xs = some m →
      m ∈ xs.filterMap id ∧
      (∀ y ∈ xs.filterMap id,
        (xs.filterMap id).count y ≤ (xs.filterMap id).count m) ∧
      (∀ y ∈ xs.filterMap id,
        (xs.filterMap id).count y = (xs.filterMap id).count m → m ≤ y)) := by
  refine ⟨fun h => ?_, fun h => ?_, fun m hm => ?_⟩
  · simp [seriesMode, h, dropDuplicates, sortAsc]
  · obtain ⟨v, hv, hcount⟩ := maxCount_attained _ h
    have hvmode : v ∈ (dropDuplicates (xs.filterMap id)).filter
        (fun v => decide ((xs.filterMap id).count v = maxCount (xs.filterMap id))) :=
      List.mem_filter.mpr ⟨(mem_dropDuplicates _ v).mpr hv, by simp [hcount]⟩
    rw [seriesMode, Option.isSome_iff_ne_none]
    simp only [ne_eq, List.head?_eq_none_iff]
    intro hnil
    have := length_sortAsc ((dropDuplicates (xs.filterMap id)).filter
      (fun v => decide ((xs.filterMap id).count v = maxCount (xs.filterMap id))))
    rw [hnil] at this
    have hempty := List.length_eq_zero.mp this.symm
    rw [hempty] at hvmode
    simp at hvmode
  · obtain ⟨hmem, hmin⟩ := sortAsc_head_min _ m hm
    have h1 := (List.mem_filter.mp hmem).1
    have h2 := (List.mem_filter.mp hmem).2
    simp only [decide_eq_true_eq] at h2
    have hmvs : m ∈ xs.filterMap id := (mem_dropDuplicates _ m).mp h1
    refine ⟨hmvs, fun y hy => ?_, fun y hy hcy => ?_⟩
    · rw [h2]
      exact count_le_maxCount _ y hy
    · have hymode : y ∈ (dropDuplicates (xs.filterMap id)).filter
          (fun v => decide ((xs.filterMap id).count v = maxCount (xs.filterMap id))) :=
        List.mem_filter.mpr ⟨(mem_dropDuplicates _ y).mpr hy, by
          simp [hcy, h2]⟩
      exact hmin y hymode

/-- C6 counterexample: on the column `[2, 2, 1, 1]` both values are tied
at two occurrences; the first-encountered value is 2, but the implemented
mode (sorted mode series, first element) returns 1 — the smallest tied
value, not the first-encountered one. -/
theorem seriesMode_tie_counterexample :
    seriesMode [some 2, some 2, some 1, some 1] = some 1 ∧
    modeSpecFirstTie [some 2, some 2, some 1, some 1] = some 2 ∧
    seriesMode [some 2, some 2, some 1, some 1] ≠
      modeSpecFirstTie [some 2, some 2, some 1, some 1] := by
  have h1 : seriesMode [some 2, some 2, some 1, some 1] = some 1 := by
    norm_num [seriesMode, dropDuplicates, maxCount, sortAsc, insertSorted,
      List.count_cons, List.filterMap]
  have h2 : modeSpecFirstTie [some 2, some 2, some 1, some 1] = some 2 := by
    norm_num [modeSpecFirstTie, dropDuplicates, maxCount, List.count_cons,
      List.filterMap]
  refine ⟨h1, h2, ?_⟩
  rw [h1, h2]
  norm_num

/-- Witness for C6 at a concrete input: on the column `[3, 1, 1]` the
computed mode 1 is indeed an element of the column. -/
theorem seriesMode_spec_witness :
    (1 : ℚ) ∈ List.filterMap id [some (3 : ℚ), some 1, some 1] :=
  ((seriesMode_spec [some 3, some 1, some 1]).2.2 1 (by
    norm_num [seriesMode, dropDuplicates, maxCount, sortAsc, insertSorted,
      List.count_cons, List.filterMap])).1
